import Mathlib
/-!
# Verification of the MongoAlchemy document layer (`mongoalchemy/document.py`)

A shallow embedding of the document/field mapping engine: `Document`
construction from keyword arguments, attribute interception on get/set,
whole-document `wrap`/`unwrap`, `commit` with index synchronization, the
`DocumentField` nested-document codec, and the fluent `Index` builder.

Python dictionaries are embedded as association lists (`List (String × α)`);
exceptions are embedded as `Except`/`Option` error values; the external
`pymongo` collection is embedded as a trace of requested operations plus an
abstract save result.
-/

/-- Plain values: scalars, stored dictionaries (`vmap`) and in-memory
`Document` instances (`vinst`, carrying the runtime class name and the
instance attribute dictionary).  A Python object's instance `__dict__` is an
association list of attribute name to value. -/
inductive Value where
  | vnull : Value
  | vint (n : Int) : Value
  | vstr (s : String) : Value
  | vbool (b : Bool) : Value
  | vlist (xs : List Value) : Value
  | vmap (entries : List (String × Value)) : Value
  | vinst (className : String) (attrs : List (String × Value)) : Value

/-- The exception taxonomy of `document.py`.  `fieldNotRetrieved` embeds the
`FieldNotRetrieved` class declared at lines 55-58; like that class in the
source, no translated operation ever produces it.  `badValue` embeds
`BadValueException` (imported from `mongoalchemy.fields`), `attributeError`
embeds Python's built-in `AttributeError`. -/
inductive DocError where
  | missingValue (name : String)
  | extraValue (key : String)
  | badValue
  | attributeError (name : String)
  | fieldNotRetrieved (name : String)
  deriving DecidableEq

/-- `pymongo.ASCENDING` (external constant). -/
def ASCENDING : Int := 1

/-- `pymongo.DESCENDING` (external constant). -/
def DESCENDING : Int := -1

/-- The `Index` builder state: `self.components`, `self.__unique`,
`self.__drop_dups` from `Index.__init__`. -/
structure IndexS where
  components : List (String × Int)
  isUnique : Bool
  dropDups : Bool

/-- `Index()`: fresh builder with empty components and both flags false. -/
def IndexS.new : IndexS := ⟨[], false, false⟩

/-- `Index.ascending(name)`: appends `(name, ASCENDING)` to `self.components`
and returns the (updated) builder. -/
def IndexS.ascending (ix : IndexS) (name : String) : IndexS :=
  { ix with components := ix.components ++ [(name, ASCENDING)] }

/-- `Index.descending(name)`: appends `(name, DESCENDING)` to
`self.components` and returns the (updated) builder. -/
def IndexS.descending (ix : IndexS) (name : String) : IndexS :=
  { ix with components := ix.components ++ [(name, DESCENDING)] }

/-- `Index.unique(drop_dups=False)`: sets `self.__unique = True` and records
`drop_dups`, returning the builder. -/
def IndexS.unique (ix : IndexS) (dd : Bool) : IndexS :=
  { ix with isUnique := true, dropDups := dd }

mutual
/-- A declared schema field.  `scalar` is a leaf `Field` (concrete leaf field
types live in `mongoalchemy.fields`, outside this module, so their codec is a
parameter: the `is_valid_wrap` predicate, the raw `wrap` transform, the
`is_valid_unwrap` predicate and the raw `unwrap` transform, together with the
`required`/`auto` flags and the optional `default`).  `nestedDoc` is a
`DocumentField(document_class)` whose codec is defined below by delegation to
the nested class, exactly as in `document.py` lines 175-212. -/
inductive FieldSpec where
  | scalar (required auto : Bool) (dflt : Option Value)
      (ivw : Value → Bool) (wf : Value → Value)
      (ivu : Value → Bool) (uf : Value → Value) : FieldSpec
  | nestedDoc (required auto : Bool) (dflt : Option Value)
      (cls : DocClass) : FieldSpec

/-- A `Document` subclass: its name (`cls.__name__`), the optional
`_collection_name` override, its declared `Field` attributes (the
`get_fields()` dictionary, as an association list in a fixed iteration
order) and its declared `Index` attributes (`get_indexes()`). -/
inductive DocClass where
  | mk (name : String) (collName : Option String)
      (fields : List (String × FieldSpec))
      (indexes : List IndexS) : DocClass
end

/-- `cls.__name__`. -/
def DocClass.name : DocClass → String
  | .mk n _ _ _ => n

/-- The `_collection_name` class attribute, when present. -/
def DocClass.collName : DocClass → Option String
  | .mk _ c _ _ => c

/-- `cls.get_fields()` as an association list. -/
def DocClass.fields : DocClass → List (String × FieldSpec)
  | .mk _ _ fs _ => fs

/-- `cls.get_indexes()`. -/
def DocClass.indexes : DocClass → List IndexS
  | .mk _ _ _ ixs => ixs

/-- `field.required`. -/
def FieldSpec.required : FieldSpec → Bool
  | .scalar r _ _ _ _ _ _ => r
  | .nestedDoc r _ _ _ => r

/-- `field.auto`. -/
def FieldSpec.auto : FieldSpec → Bool
  | .scalar _ a _ _ _ _ _ => a
  | .nestedDoc _ a _ _ => a

/-- `field.default` when `hasattr(field, 'default')`, else `none`. -/
def FieldSpec.dflt : FieldSpec → Option Value
  | .scalar _ _ d _ _ _ _ => d
  | .nestedDoc _ _ d _ => d

/-- `getattr(cls, name)` restricted to `Field` attributes: dictionary lookup
in the class's field map (`name in fields` / `fields[name]`). -/
def DocClass.findField (cls : DocClass) (name : String) : Option FieldSpec :=
  List.lookup name cls.fields

/-- `cls.get_collection_name()`: the `_collection_name` override when it
exists, else the class name (lines 125-129). -/
def DocClass.get_collection_name (cls : DocClass) : String :=
  match cls.collName with
  | some n => n
  | none => cls.name

/-- `field.is_valid_wrap(value)`.  For a scalar leaf this is its codec
predicate; for `DocumentField` it is `value.__class__ == self.type`
(line 204): the value is an instance whose runtime class name equals the
nested class's name. -/
def FieldSpec.is_valid_wrap : FieldSpec → Value → Bool
  | .scalar _ _ _ ivw _ _ _, v => ivw v
  | .nestedDoc _ _ _ cls, v =>
    match v with
    | .vinst tn _ => tn == cls.name
    | _ => false

/-- `field.validate_wrap(value)`: raises `BadValueException` exactly when
`is_valid_wrap` is false (`DocumentField.validate_wrap`, lines 181-185; leaf
fields satisfy the same contract per the codec interface). -/
def FieldSpec.validate_wrap (f : FieldSpec) (v : Value) : Option DocError :=
  if f.is_valid_wrap v then none else some .badValue

/-- `object.__setattr__` on the instance dictionary: replace the binding if
the attribute is present, otherwise append it. -/
def setStore (inst : List (String × Value)) (name : String) (v : Value) :
    List (String × Value) :=
  match inst with
  | [] => [(name, v)]
  | (k, w) :: rest =>
    if k == name then (name, v) :: rest else (k, w) :: setStore rest name v

/-- The error, if any, that `Document.__setattr__(name, value)` raises
(lines 89-97): `AttributeError` when `name` is not a declared `Field` of the
class, else `BadValueException` via `field.validate_wrap(value)` when the
value is invalid.  The error does not depend on the instance state because
validation precedes the store. -/
def setattrErr (cls : DocClass) (name : String) (v : Value) : Option DocError :=
  match cls.findField name with
  | none => some (.attributeError name)
  | some f => f.validate_wrap v

/-- `Document.__setattr__(name, value)` (lines 89-97): validate first, then
`object.__setattr__`; on failure the exception propagates and the instance
dictionary is left exactly as it was. -/
def Document.setattr (cls : DocClass) (inst : List (String × Value))
    (name : String) (v : Value) : List (String × Value) × Option DocError :=
  match setattrErr cls name v with
  | none => (setStore inst name v, none)
  | some e => (inst, some e)

/-- What `object.__getattribute__(self, name)` finds: an instance-dictionary
value, else the class's `Field` descriptor, else nothing. -/
def rawGet (cls : DocClass) (inst : List (String × Value)) (name : String) :
    Option (Value ⊕ FieldSpec) :=
  match List.lookup name inst with
  | some v => some (.inl v)
  | none =>
    match cls.findField name with
    | some f => some (.inr f)
    | none => none

/-- `Document.__getattribute__(self, name)` (lines 99-103): return the stored
value; when the looked-up value is the `Field` descriptor itself, raise
`AttributeError(name)` (line 102); when the attribute does not exist at all,
`object.__getattribute__` raises `AttributeError`. -/
def Document.getattribute (cls : DocClass) (inst : List (String × Value))
    (name : String) : Except DocError Value :=
  match rawGet cls inst name with
  | some (.inl v) => .ok v
  | some (.inr _) => .error (.attributeError name)
  | none => .error (.attributeError name)

/-- The per-field loop of `Document.__init__` (lines 70-83): for each
declared field, assign the kwarg when supplied (through `__setattr__`), else
skip it when `auto`, else fail with `MissingValueException` when `required`,
else assign the default through `__setattr__` when one is declared. -/
def initFields (cls : DocClass) (fs : List (String × FieldSpec))
    (kwargs : List (String × Value)) (inst : List (String × Value)) :
    Except DocError (List (String × Value)) :=
  match fs with
  | [] => .ok inst
  | (n, f) :: rest =>
    match List.lookup n kwargs with
    | some v =>
      match Document.setattr cls inst n v with
      | (inst2, none) => initFields cls rest kwargs inst2
      | (_, some e) => .error e
    | none =>
      if f.auto then initFields cls rest kwargs inst
      else if f.required then .error (.missingValue n)
      else
        match f.dflt with
        | some d =>
          match Document.setattr cls inst n d with
          | (inst2, none) => initFields cls rest kwargs inst2
          | (_, some e) => .error e
        | none => initFields cls rest kwargs inst

/-- The trailing loop of `Document.__init__` (lines 85-87): the first kwargs
key that is not a declared field raises `ExtraValueException(k)`. -/
def checkExtra (cls : DocClass) : List String → Option DocError
  | [] => none
  | k :: rest =>
    match cls.findField k with
    | some _ => checkExtra cls rest
    | none => some (.extraValue k)

/-- `Document.__init__(**kwargs)` (lines 67-87): process every declared field
(starting from an empty instance dictionary), then reject unconsumed kwargs
keys. -/
def Document.init (cls : DocClass) (kwargs : List (String × Value)) :
    Except DocError (List (String × Value)) :=
  match initFields cls cls.fields kwargs [] with
  | .error e => .error e
  | .ok inst =>
    match checkExtra cls (kwargs.map Prod.fst) with
    | some e => .error e
    | none => .ok inst

mutual
/-- `field.wrap(value)` (`DocumentField.wrap`, lines 193-195, and the leaf
codec contract): `validate_wrap` first — raising `BadValueException` on an
invalid value — then the raw transform; for `DocumentField`,
`self.type.wrap(value)` on the nested instance's attribute dictionary,
producing a stored dictionary. -/
def FieldSpec.wrap : FieldSpec → Value → Except DocError Value
  | .scalar _ _ _ ivw wf _ _, v =>
    if ivw v then .ok (wf v) else .error .badValue
  | .nestedDoc _ _ _ cls, v =>
    match v with
    | .vinst tn attrs =>
      if tn == cls.name then
        match Document.wrap cls attrs with
        | .ok entries => .ok (.vmap entries)
        | .error e => .error e
      else .error .badValue
    | _ => .error .badValue
termination_by f _ => sizeOf f

/-- `Document.wrap(self)` (lines 147-160): over the class's `Field`
attributes, skip fields whose value is absent from the instance dictionary
(the `AttributeError`/`continue` path) and store `name -> field.wrap(value)`
for the rest. -/
def Document.wrap (cls : DocClass) (inst : List (String × Value)) :
    Except DocError (List (String × Value)) :=
  match cls with
  | .mk _ _ fs _ => wrapFields fs inst
termination_by sizeOf cls

/-- The field loop of `Document.wrap`, iterating the declared fields. -/
def wrapFields : List (String × FieldSpec) → List (String × Value) →
    Except DocError (List (String × Value))
  | [], _ => .ok []
  | (n, f) :: rest, inst =>
    match List.lookup n inst with
    | none => wrapFields rest inst
    | some v =>
      match f.wrap v with
      | .error e => .error e
      | .ok w =>
        match wrapFields rest inst with
        | .error e => .error e
        | .ok tl => .ok ((n, w) :: tl)
termination_by fs _ => sizeOf fs
end

/-- A value found by key lookup in an association list is structurally
smaller than the list (used for termination of `Document.unwrap`). -/
theorem lookup_sizeOf_lt {β : Type} [SizeOf β] (k : String)
    (l : List (String × β)) (b : β) (h : List.lookup k l = some b) :
    sizeOf b < sizeOf l := by
  induction l with
  | nil => simp [List.lookup] at h
  | cons p rest ih =>
    obtain ⟨k', b'⟩ := p
    simp only [List.lookup] at h
    by_cases hk : k == k'
    · simp [hk] at h
      subst h
      simp
      omega
    · simp [hk] at h
      have := ih h
      simp
      omega

/-- A field found on a class is structurally smaller than the class. -/
theorem findField_sizeOf_lt (cls : DocClass) (k : String) (f : FieldSpec)
    (h : cls.findField k = some f) : sizeOf f < sizeOf cls := by
  obtain ⟨n, c, fs, ixs⟩ := cls
  simp only [DocClass.findField, DocClass.fields] at h
  have := lookup_sizeOf_lt k fs f h
  simp
  omega

mutual
/-- `field.unwrap(stored_value)` (`DocumentField.unwrap`, lines 197-199, and
the leaf codec contract): `validate_unwrap` first — `BadValueException` when
`is_valid_unwrap` is false — then the raw transform.  For `DocumentField`,
`is_valid_unwrap` attempts `self.type.unwrap(value)` and reports any failure
(including a non-dictionary value, whose `iteritems` call fails) as invalid
(lines 206-212); the successful unwrap is the nested instance. -/
def FieldSpec.unwrap : FieldSpec → Value → Except DocError Value
  | .scalar _ _ _ _ _ ivu uf, v =>
    if ivu v then .ok (uf v) else .error .badValue
  | .nestedDoc _ _ _ cls, v =>
    match v with
    | .vmap entries =>
      match Document.unwrap cls entries with
      | .ok attrs => .ok (.vinst cls.name attrs)
      | .error _ => .error .badValue
    | _ => .error .badValue
termination_by f _ => (sizeOf f, 0)

/-- `Document.unwrap(cls, obj)` (lines 162-172): build the kwargs dictionary
by unwrapping every stored entry, then construct `cls(**params)`. -/
def Document.unwrap (cls : DocClass) (obj : List (String × Value)) :
    Except DocError (List (String × Value)) :=
  unwrapEntries cls obj []
termination_by (sizeOf cls, obj.length + 1)

/-- The entry loop of `Document.unwrap`: for each stored key,
`getattr(cls, k)` (an `AttributeError` when no such class attribute exists),
then `params[k] = field.unwrap(v)`; after the loop, `cls(**params)`. -/
def unwrapEntries (cls : DocClass) (obj : List (String × Value))
    (params : List (String × Value)) :
    Except DocError (List (String × Value)) :=
  match obj with
  | [] => Document.init cls params
  | (k, v) :: rest =>
    match hf : cls.findField k with
    | none => .error (.attributeError k)
    | some f =>
      match f.unwrap v with
      | .error e => .error e
      | .ok u => unwrapEntries cls rest (setStore params k u)
termination_by (sizeOf cls, obj.length)
decreasing_by
  · exact Prod.Lex.left _ _ (findField_sizeOf_lt cls k f hf)
  · exact Prod.Lex.right _ (by simp)
end

/-- An operation requested of the external collection during `commit`:
`collection.ensure_index(components, unique=u, drop_dups=d)` or
`collection.save(document)`. -/
inductive CollOp where
  | ensureIndexOp (components : List (String × Int)) (u : Bool) (d : Bool)
  | saveOp (doc : List (String × Value))

/-- `Index.ensure(collection)` (lines 239-242) as the collection operation it
requests. -/
def IndexS.ensureOp (ix : IndexS) : CollOp :=
  .ensureIndexOp ix.components ix.isUnique ix.dropDups

/-- How a `commit` run can fail: an exception of the document layer (a wrap
failure, or `_id` assignment failure), or the external `collection.save`
raising. -/
inductive CommitError where
  | docErr (e : DocError)
  | saveFailed

/-- The outcome of `Document.commit`: the instance dictionary after the call,
the resolved collection name, the ordered trace of operations requested of
that collection, and the error if one propagated. -/
structure CommitOutcome where
  inst : List (String × Value)
  collection : String
  ops : List CollOp
  err : Option CommitError

/-- `Document.commit(self, db)` (lines 140-145): resolve
`db[self.get_collection_name()]`, call `index.ensure(collection)` for every
declared index, evaluate `self.wrap()`, pass it to `collection.save` — whose
external result is the `saveResult` parameter — and on success assign the
returned identifier through `self._id = id` (an ordinary `__setattr__`).  If
`save` (or `wrap`) raises, the assignment never runs. -/
def Document.commit (cls : DocClass) (inst : List (String × Value))
    (saveResult : Except Unit Value) : CommitOutcome :=
  let coll := cls.get_collection_name
  let ops := cls.indexes.map IndexS.ensureOp
  match Document.wrap cls inst with
  | .error e => ⟨inst, coll, ops, some (.docErr e)⟩
  | .ok doc =>
    match saveResult with
    | .error _ => ⟨inst, coll, ops ++ [.saveOp doc], some .saveFailed⟩
    | .ok idv =>
      match Document.setattr cls inst "_id" idv with
      | (inst2, none) => ⟨inst2, coll, ops ++ [.saveOp doc], none⟩
      | (inst2, some e) => ⟨inst2, coll, ops ++ [.saveOp doc], some (.docErr e)⟩

/-- Codec predicate of a string-valued leaf field. -/
def isStrV : Value → Bool := fun v => match v with | .vstr _ => true | _ => false

/-- Codec predicate of an integer-valued leaf field. -/
def isIntV : Value → Bool := fun v => match v with | .vint _ => true | _ => false

/-- A required string leaf field (e.g. `StringField(required=True)`). -/
def strField : FieldSpec := .scalar true false none isStrV id isStrV id

/-- An optional integer leaf field with default `0`. -/
def ageField : FieldSpec := .scalar false false (some (.vint 0)) isIntV id isIntV id

/-- The inherited `_id = ObjectIdField(required=False)` (line 65), with the
identifier modelled as a string value. -/
def oidField : FieldSpec := .scalar false false none isStrV id isStrV id

/-- The spec's example schema: a `Person` with required `name`, optional
`age` (default 0) and the inherited `_id`; field order is the sorted
`dir(cls)` order. -/
def Person : DocClass :=
  .mk "Person" none [("_id", oidField), ("age", ageField), ("name", strField)] []

/-- An auto-marked integer field that is also required and carries a default,
to exercise C8: `auto` wins over both. -/
def autoField : FieldSpec := .scalar true true (some (.vint 7)) isIntV id isIntV id

/-- A fully populated `Person` instance (identity leaf codecs). -/
def pInst : List (String × Value) :=
  [("_id", .vstr "X"), ("age", .vint 3), ("name", .vstr "Ada")]

/-- A `Person` variant declaring one index and an explicit collection name,
to exercise `commit`. -/
def PersonIxd : DocClass :=
  .mk "Person" (some "people")
    [("_id", oidField), ("age", ageField), ("name", strField)]
    [IndexS.new.ascending "name"]

mutual
/-- Well-behavedness of one stored field value, saying the value was set
through the validation gate and its leaf codec round-trips: for a scalar
leaf, `is_valid_wrap` holds, the wrapped value passes `is_valid_unwrap`, and
raw unwrap inverts raw wrap; for a `DocumentField`, the value is an instance
of the nested class in canonical (constructor-produced, fully set) form. -/
def goodVal : FieldSpec → Value → Prop
  | .scalar _ _ _ ivw wf ivu uf, v =>
    ivw v = true ∧ ivu (wf v) = true ∧ uf (wf v) = v
  | .nestedDoc _ _ _ cls, v =>
    match v with
    | .vinst tn attrs => tn = cls.name ∧ goodInst cls attrs
    | _ => False
termination_by f _ => sizeOf f

/-- A validly constructed, fully set instance of `cls` in canonical form:
distinct declared field names, and the attribute dictionary lists exactly the
declared fields in declaration order, each with a well-behaved value. -/
def goodInst : DocClass → List (String × Value) → Prop
  | .mk _ _ fs _, attrs => (fs.map Prod.fst).Nodup ∧ goodFields fs attrs
termination_by cls _ => sizeOf cls

/-- Pointwise canonical correspondence of a field list and an attribute
dictionary. -/
def goodFields : List (String × FieldSpec) → List (String × Value) → Prop
  | [], [] => True
  | (n, f) :: fs, (m, v) :: vs => n = m ∧ goodVal f v ∧ goodFields fs vs
  | _, _ => False
termination_by fs _ => sizeOf fs
end

/-- Per-position lookup correspondence between a field list and an attribute
list, evaluated against a fixed instance dictionary. -/
def aligned (inst : List (String × Value)) :
    List (String × FieldSpec) → List (String × Value) → Prop
  | [], [] => True
  | (n, _) :: fs, (m, v) :: vs =>
    n = m ∧ List.lookup n inst = some v ∧ aligned inst fs vs
  | _, _ => False

/-- The value a successful `field.wrap` produces (junk on failure). -/
def wrapValD (f : FieldSpec) (v : Value) : Value :=
  match f.wrap v with
  | .ok w => w
  | .error _ => .vnull

/-- The dictionary `Document.wrap` produces from a canonical fully set
attribute list. -/
def wrapPairs : List (String × FieldSpec) → List (String × Value) →
    List (String × Value)
  | (n, f) :: fs, (_, v) :: vs => (n, wrapValD f v) :: wrapPairs fs vs
  | _, _ => []

/-- A nested document class with one required string field. -/
def Address : DocClass := .mk "Address" none [("city", strField)] []

/-- A class holding a nested `Address` through a `DocumentField` plus a
string leaf. -/
def Owner : DocClass :=
  .mk "Owner" none
    [("addr", .nestedDoc true false none Address), ("name", strField)] []

/-- A fully set `Owner` instance with a nested `Address` instance. -/
def ownerInst : List (String × Value) :=
  [("addr", .vinst "Address" [("city", .vstr "Paris")]),
   ("name", .vstr "Ada")]

/-- C9: on any builder state, `ascending(name)` and `descending(name)` append
`(name, ASCENDING)` resp. `(name, DESCENDING)` to the ordered component list
and change nothing else, `unique()` marks the index unique, and the chain
`Index().ascending("a").descending("b").unique()` yields components
`[("a", ASCENDING), ("b", DESCENDING)]` with the unique flag set. -/
theorem c9_index_fluent_builder :
    (∀ (ix : IndexS) (n : String),
      (ix.ascending n).components = ix.components ++ [(n, ASCENDING)] ∧
      (ix.ascending n).isUnique = ix.isUnique ∧
      (ix.ascending n).dropDups = ix.dropDups ∧
      (ix.descending n).components = ix.components ++ [(n, DESCENDING)] ∧
      (ix.descending n).isUnique = ix.isUnique ∧
      (ix.descending n).dropDups = ix.dropDups) ∧
    (∀ (ix : IndexS) (dd : Bool),
      (ix.unique dd).isUnique = true ∧
      (ix.unique dd).components = ix.components) ∧
    ((IndexS.new.ascending "a").descending "b").unique false =
      ⟨[("a", ASCENDING), ("b", DESCENDING)], true, false⟩ := by
  refine ⟨fun ix n => ⟨rfl, rfl, rfl, rfl, rfl, rfl⟩, fun ix dd => ⟨rfl, rfl⟩, rfl⟩

/-- C3: assigning a value that fails the field's `validate_wrap` raises
`BadValueException` and returns with the instance dictionary — this field's
binding and every other — exactly as it was before the attempt. -/
theorem c3_failed_assignment_atomic (cls : DocClass)
    (inst : List (String × Value)) (n : String) (f : FieldSpec) (v : Value)
    (hf : cls.findField n = some f) (hbad : f.is_valid_wrap v = false) :
    Document.setattr cls inst n v = (inst, some .badValue) := by
  simp [Document.setattr, setattrErr, hf, FieldSpec.validate_wrap, hbad]

/-- Witness for C3: assigning the integer `3` to `Person`'s string field
`name` fails with `BadValueException` and leaves the stored `name` intact. -/
theorem c3_witness :
    Person.findField "name" = some strField ∧
    strField.is_valid_wrap (.vint 3) = false ∧
    Document.setattr Person [("name", .vstr "Ada")] "name" (.vint 3) =
      ([("name", .vstr "Ada")], some .badValue) :=
  ⟨rfl, rfl, c3_failed_assignment_atomic Person [("name", .vstr "Ada")] "name"
    strField (.vint 3) rfl rfl⟩

/-- C4 (divergence evidence): reading the never-assigned, default-free field
`name` of a partially loaded `Person` raises the plain `AttributeError` of
`__getattribute__` line 102 — not `FieldNotRetrieved`, which the source
declares for exactly this situation but never raises.  The read does fail
rather than return the `Field` descriptor. -/
theorem c4_unset_read_is_attributeError :
    Document.getattribute Person [] "name" = .error (.attributeError "name") ∧
    Document.getattribute Person [] "name" ≠
      .error (.fieldNotRetrieved "name") := by
  constructor
  · rfl
  · intro h
    rw [show Document.getattribute Person [] "name" =
      .error (.attributeError "name") from rfl] at h
    simp at h

/-- Unfolding lemma: lookup on a cons cell. -/
theorem lookup_cons {β : Type} (k k' : String) (b : β) (l : List (String × β)) :
    List.lookup k ((k', b) :: l) = if k = k' then some b else List.lookup k l := by
  by_cases h : k = k'
  · simp [List.lookup, h]
  · simp only [List.lookup]
    rw [show (k == k') = false by simp [h], if_neg h]

/-- Looking a key up after storing it finds the stored value. -/
theorem lookup_setStore_self (inst : List (String × Value)) (n : String)
    (v : Value) : List.lookup n (setStore inst n v) = some v := by
  induction inst with
  | nil => simp [setStore, lookup_cons]
  | cons p rest ih =>
    obtain ⟨k, w⟩ := p
    simp only [setStore]
    by_cases hk : k = n
    · rw [if_pos (by simp [hk])]
      simp [lookup_cons]
    · rw [if_neg (by simp [hk]), lookup_cons, if_neg (Ne.symm hk)]
      exact ih

/-- Storing one attribute leaves every other attribute's binding unchanged. -/
theorem lookup_setStore_ne (inst : List (String × Value)) (k n : String)
    (v : Value) (h : k ≠ n) :
    List.lookup n (setStore inst k v) = List.lookup n inst := by
  induction inst with
  | nil => simp [setStore, lookup_cons, Ne.symm h]
  | cons p rest ih =>
    obtain ⟨k', w⟩ := p
    simp only [setStore]
    by_cases hk : k' = k
    · rw [if_pos (by simp [hk])]
      rw [lookup_cons, lookup_cons, hk]
      by_cases hn : n = k
      · exact absurd hn.symm h
      · simp [hn]
    · rw [if_neg (by simp [hk]), lookup_cons, lookup_cons]
      by_cases hn : n = k'
      · simp [hn]
      · simp [hn, ih]

/-- Storing an absent attribute appends it. -/
theorem setStore_append (inst : List (String × Value)) (n : String) (v : Value)
    (h : List.lookup n inst = none) : setStore inst n v = inst ++ [(n, v)] := by
  induction inst with
  | nil => simp [setStore]
  | cons p rest ih =>
    obtain ⟨k, w⟩ := p
    rw [lookup_cons] at h
    by_cases hk : n = k
    · rw [if_pos hk] at h; cases h
    · rw [if_neg hk] at h
      simp only [setStore]
      rw [if_neg (by simp [Ne.symm hk])]
      simp [ih h]

/-- Key lookup distributes over list append. -/
theorem lookup_append {β : Type} (k : String) (l1 l2 : List (String × β)) :
    List.lookup k (l1 ++ l2) = (List.lookup k l1).or (List.lookup k l2) := by
  induction l1 with
  | nil => simp [List.lookup]
  | cons p rest ih =>
    obtain ⟨k', b⟩ := p
    by_cases hk : k = k'
    · simp only [List.cons_append, lookup_cons, if_pos hk]
      simp [Option.or]
    · simp only [List.cons_append, lookup_cons, if_neg hk]
      exact ih

/-- The `__init__` field loop fails with `MissingValueException` whenever some
listed field is required, not auto, and absent from the kwargs — provided the
assignments the loop performs before reaching it succeed (supplied kwargs and
applicable declared defaults validate). -/
theorem initFields_missing (cls : DocClass) (fs : List (String × FieldSpec))
    (kwargs inst : List (String × Value))
    (hv : ∀ p ∈ fs, ∀ v, List.lookup p.1 kwargs = some v →
      setattrErr cls p.1 v = none)
    (hd : ∀ p ∈ fs, List.lookup p.1 kwargs = none → p.2.auto = false →
      p.2.required = false → ∀ d, p.2.dflt = some d → setattrErr cls p.1 d = none)
    (hm : ∃ p ∈ fs, p.2.required = true ∧ p.2.auto = false ∧
      List.lookup p.1 kwargs = none) :
    ∃ m, initFields cls fs kwargs inst = .error (.missingValue m) := by
  induction fs generalizing inst with
  | nil => obtain ⟨p, hp, _⟩ := hm; exact absurd hp (by simp)
  | cons q rest ih =>
    obtain ⟨n, f⟩ := q
    obtain ⟨p, hp, hpr, hpa, hpk⟩ := hm
    have hv' : ∀ p ∈ rest, ∀ v, List.lookup p.1 kwargs = some v →
        setattrErr cls p.1 v = none :=
      fun q hq => hv q (List.mem_cons_of_mem _ hq)
    have hd' : ∀ p ∈ rest, List.lookup p.1 kwargs = none → p.2.auto = false →
        p.2.required = false → ∀ d, p.2.dflt = some d →
        setattrErr cls p.1 d = none :=
      fun q hq => hd q (List.mem_cons_of_mem _ hq)
    cases hvk : List.lookup n kwargs with
    | some v =>
      have hok := hv (n, f) (by simp) v hvk
      have hrest : p ∈ rest := by
        rcases List.mem_cons.mp hp with h | h
        · exfalso; rw [h] at hpk; simp only at hpk; rw [hpk] at hvk; cases hvk
        · exact h
      simp only [initFields, hvk, Document.setattr, hok]
      exact ih (setStore inst n v) hv' hd' ⟨p, hrest, hpr, hpa, hpk⟩
    | none =>
      simp only [initFields, hvk]
      cases hauto : f.auto with
      | true =>
        have hrest : p ∈ rest := by
          rcases List.mem_cons.mp hp with h | h
          · exfalso; rw [h] at hpa; simp only at hpa; rw [hpa] at hauto; cases hauto
          · exact h
        simp only [if_pos rfl]
        exact ih inst hv' hd' ⟨p, hrest, hpr, hpa, hpk⟩
      | false =>
        cases hreq : f.required with
        | true => exact ⟨n, by simp [hauto, hreq]⟩
        | false =>
          have hrest : p ∈ rest := by
            rcases List.mem_cons.mp hp with h | h
            · exfalso; rw [h] at hpr; simp only at hpr; rw [hpr] at hreq; cases hreq
            · exact h
          cases hdf : f.dflt with
          | none =>
            simpa [hauto, hreq, hdf] using
              ih inst hv' hd' ⟨p, hrest, hpr, hpa, hpk⟩
          | some d =>
            have hok := hd (n, f) (by simp) hvk hauto hreq d hdf
            simpa [hauto, hreq, hdf, Document.setattr, hok] using
              ih (setStore inst n d) hv' hd' ⟨p, hrest, hpr, hpa, hpk⟩

/-- The `__init__` field loop succeeds when every required non-auto listed
field is supplied and every assignment it performs validates. -/
theorem initFields_ok (cls : DocClass) (fs : List (String × FieldSpec))
    (kwargs inst : List (String × Value))
    (hv : ∀ p ∈ fs, ∀ v, List.lookup p.1 kwargs = some v →
      setattrErr cls p.1 v = none)
    (hd : ∀ p ∈ fs, List.lookup p.1 kwargs = none → p.2.auto = false →
      p.2.required = false → ∀ d, p.2.dflt = some d → setattrErr cls p.1 d = none)
    (hr : ∀ p ∈ fs, p.2.required = true → p.2.auto = false →
      ∃ v, List.lookup p.1 kwargs = some v) :
    ∃ inst2, initFields cls fs kwargs inst = .ok inst2 := by
  induction fs generalizing inst with
  | nil => exact ⟨inst, rfl⟩
  | cons q rest ih =>
    obtain ⟨n, f⟩ := q
    have hv' : ∀ p ∈ rest, ∀ v, List.lookup p.1 kwargs = some v →
        setattrErr cls p.1 v = none :=
      fun q hq => hv q (List.mem_cons_of_mem _ hq)
    have hd' : ∀ p ∈ rest, List.lookup p.1 kwargs = none → p.2.auto = false →
        p.2.required = false → ∀ d, p.2.dflt = some d →
        setattrErr cls p.1 d = none :=
      fun q hq => hd q (List.mem_cons_of_mem _ hq)
    have hr' : ∀ p ∈ rest, p.2.required = true → p.2.auto = false →
        ∃ v, List.lookup p.1 kwargs = some v :=
      fun q hq => hr q (List.mem_cons_of_mem _ hq)
    cases hvk : List.lookup n kwargs with
    | some v =>
      have hok := hv (n, f) (by simp) v hvk
      simp only [initFields, hvk, Document.setattr, hok]
      exact ih (setStore inst n v) hv' hd' hr'
    | none =>
      simp only [initFields, hvk]
      cases hauto : f.auto with
      | true => simpa using ih inst hv' hd' hr'
      | false =>
        cases hreq : f.required with
        | true =>
          obtain ⟨v, hvv⟩ := hr (n, f) (by simp) hreq hauto
          rw [hvv] at hvk; cases hvk
        | false =>
          cases hdf : f.dflt with
          | none => simpa [hauto, hreq, hdf] using ih inst hv' hd' hr'
          | some d =>
            have hok := hd (n, f) (by simp) hvk hauto hreq d hdf
            simpa [hauto, hreq, hdf, Document.setattr, hok] using
              ih (setStore inst n d) hv' hd' hr'

/-- The trailing kwargs check raises `ExtraValueException` at the first key
that names no declared field, whenever one exists. -/
theorem checkExtra_some (cls : DocClass) (ks : List String)
    (hex : ∃ k ∈ ks, cls.findField k = none) :
    ∃ k, cls.findField k = none ∧ checkExtra cls ks = some (.extraValue k) := by
  induction ks with
  | nil => obtain ⟨k, hk, _⟩ := hex; exact absurd hk (by simp)
  | cons k0 rest ih =>
    cases hf0 : cls.findField k0 with
    | none => exact ⟨k0, hf0, by simp [checkExtra, hf0]⟩
    | some f =>
      obtain ⟨k, hk, hkn⟩ := hex
      have hkr : k ∈ rest := by
        rcases List.mem_cons.mp hk with h | h
        · exfalso; rw [h] at hkn; rw [hkn] at hf0; cases hf0
        · exact h
      obtain ⟨k', h1, h2⟩ := ih ⟨k, hkr, hkn⟩
      exact ⟨k', h1, by simp [checkExtra, hf0, h2]⟩

/-- The trailing kwargs check passes when every key names a declared field. -/
theorem checkExtra_none (cls : DocClass) (ks : List String)
    (h : ∀ k ∈ ks, ∃ f, cls.findField k = some f) :
    checkExtra cls ks = none := by
  induction ks with
  | nil => rfl
  | cons k0 rest ih =>
    obtain ⟨f, hf⟩ := h k0 (by simp)
    simp only [checkExtra, hf]
    exact ih fun k hk => h k (List.mem_cons_of_mem _ hk)

/-- C1: constructing a document fails with `MissingValueException` when some
declared required non-auto field has no kwargs key, and fails with
`ExtraValueException` when required fields are all supplied but some kwargs
key names no declared field — in both cases provided the assignments the
constructor performs (supplied kwargs values and applicable declared
defaults) pass validation. -/
theorem c1_construction_failures (cls : DocClass)
    (kwargs : List (String × Value))
    (hv : ∀ p ∈ cls.fields, ∀ v, List.lookup p.1 kwargs = some v →
      setattrErr cls p.1 v = none)
    (hd : ∀ p ∈ cls.fields, List.lookup p.1 kwargs = none → p.2.auto = false →
      p.2.required = false → ∀ d, p.2.dflt = some d →
      setattrErr cls p.1 d = none) :
    ((∃ p ∈ cls.fields, p.2.required = true ∧ p.2.auto = false ∧
        List.lookup p.1 kwargs = none) →
      ∃ m, Document.init cls kwargs = .error (.missingValue m)) ∧
    ((∀ p ∈ cls.fields, p.2.required = true → p.2.auto = false →
        ∃ v, List.lookup p.1 kwargs = some v) →
      (∃ k ∈ kwargs.map Prod.fst, cls.findField k = none) →
      ∃ k, cls.findField k = none ∧
        Document.init cls kwargs = .error (.extraValue k)) := by
  constructor
  · intro hm
    obtain ⟨m, hm2⟩ := initFields_missing cls cls.fields kwargs [] hv hd hm
    exact ⟨m, by simp [Document.init, hm2]⟩
  · intro hr hex
    obtain ⟨inst2, hok⟩ := initFields_ok cls cls.fields kwargs [] hv hd hr
    obtain ⟨k, hkn, hck⟩ := checkExtra_some cls (kwargs.map Prod.fst) hex
    exact ⟨k, hkn, by simp [Document.init, hok, hck]⟩

/-- Witness for C1: `Person()` fails with `MissingValueException`, and
`Person(age=5, name="Ada", nickname="A")` fails with `ExtraValueException`. -/
theorem c1_witness :
    (∃ m, Document.init Person [] = .error (.missingValue m)) ∧
    (∃ k, Person.findField k = none ∧
      Document.init Person
        [("age", .vint 5), ("name", .vstr "Ada"), ("nickname", .vstr "A")] =
        .error (.extraValue k)) := by
  constructor
  · refine (c1_construction_failures Person [] ?_ ?_).1
      ⟨("name", strField), by simp [Person, DocClass.fields], rfl, rfl, rfl⟩
    · intro p hp v hvv
      simp [List.lookup] at hvv
    · intro p hp hnk ha hr d hdd
      obtain ⟨n, f⟩ := p
      simp [Person, DocClass.fields] at hp
      rcases hp with ⟨rfl, rfl⟩ | ⟨rfl, rfl⟩ | ⟨rfl, rfl⟩
      · cases hdd
      · cases hdd; rfl
      · cases hdd
  · refine (c1_construction_failures Person _ ?_ ?_).2 ?_
      ⟨"nickname", by simp, rfl⟩
    · intro p hp v hvv
      obtain ⟨n, f⟩ := p
      simp [Person, DocClass.fields] at hp
      rcases hp with ⟨rfl, rfl⟩ | ⟨rfl, rfl⟩ | ⟨rfl, rfl⟩
      · simp [lookup_cons] at hvv
      · simp [lookup_cons] at hvv; subst hvv; rfl
      · simp [lookup_cons] at hvv; subst hvv; rfl
    · intro p hp hnk ha hr d hdd
      obtain ⟨n, f⟩ := p
      simp [Person, DocClass.fields] at hp
      rcases hp with ⟨rfl, rfl⟩ | ⟨rfl, rfl⟩ | ⟨rfl, rfl⟩
      · cases hdd
      · simp [lookup_cons] at hnk
      · cases hdd
    · intro p hp hr ha
      obtain ⟨n, f⟩ := p
      simp [Person, DocClass.fields] at hp
      rcases hp with ⟨rfl, rfl⟩ | ⟨rfl, rfl⟩ | ⟨rfl, rfl⟩
      · cases hr
      · cases hr
      · exact ⟨.vstr "Ada", rfl⟩

/-- C10: when a required non-auto field is missing AND an unknown kwargs key
is present, construction fails with `MissingValueException`, never
`ExtraValueException`: the unknown-key loop runs only after the field loop. -/
theorem c10_missing_precedes_extra (cls : DocClass)
    (kwargs : List (String × Value))
    (hv : ∀ p ∈ cls.fields, ∀ v, List.lookup p.1 kwargs = some v →
      setattrErr cls p.1 v = none)
    (hd : ∀ p ∈ cls.fields, List.lookup p.1 kwargs = none → p.2.auto = false →
      p.2.required = false → ∀ d, p.2.dflt = some d →
      setattrErr cls p.1 d = none)
    (hm : ∃ p ∈ cls.fields, p.2.required = true ∧ p.2.auto = false ∧
      List.lookup p.1 kwargs = none)
    (_hx : ∃ k ∈ kwargs.map Prod.fst, cls.findField k = none) :
    (∃ m, Document.init cls kwargs = .error (.missingValue m)) ∧
    ∀ k, Document.init cls kwargs ≠ .error (.extraValue k) := by
  obtain ⟨m, hm2⟩ := initFields_missing cls cls.fields kwargs [] hv hd hm
  refine ⟨⟨m, by simp [Document.init, hm2]⟩, ?_⟩
  intro k hk
  rw [show Document.init cls kwargs = .error (.missingValue m) by
    simp [Document.init, hm2]] at hk
  simp at hk

/-- Witness for C10: `Person(nickname="A")` both misses the required `name`
and passes the unknown key `nickname`; the failure is `MissingValueException`
and not `ExtraValueException`. -/
theorem c10_witness :
    (∃ m, Document.init Person [("nickname", .vstr "A")] =
      .error (.missingValue m)) ∧
    ∀ k, Document.init Person [("nickname", .vstr "A")] ≠
      .error (.extraValue k) := by
  refine c10_missing_precedes_extra Person [("nickname", .vstr "A")] ?_ ?_
    ⟨("name", strField), by simp [Person, DocClass.fields], rfl, rfl, rfl⟩
    ⟨"nickname", by simp, rfl⟩
  · intro p hp v hvv
    obtain ⟨n, f⟩ := p
    simp [Person, DocClass.fields] at hp
    rcases hp with ⟨rfl, rfl⟩ | ⟨rfl, rfl⟩ | ⟨rfl, rfl⟩ <;>
      simp [lookup_cons] at hvv
  · intro p hp hnk ha hr d hdd
    obtain ⟨n, f⟩ := p
    simp [Person, DocClass.fields] at hp
    rcases hp with ⟨rfl, rfl⟩ | ⟨rfl, rfl⟩ | ⟨rfl, rfl⟩
    · cases hdd
    · cases hdd; rfl
    · cases hdd

/-- Lookup ignores a middle entry whose key differs. -/
theorem lookup_append_middle {β : Type} (k n : String) (f : β)
    (l1 l2 : List (String × β)) (h : k ≠ n) :
    List.lookup k (l1 ++ (n, f) :: l2) = List.lookup k (l1 ++ l2) := by
  rw [lookup_append, lookup_append, lookup_cons, if_neg h]

/-- A key that looks up to nothing heads no entry. -/
theorem lookup_none_keys {β : Type} (n : String) (l : List (String × β))
    (h : List.lookup n l = none) : ∀ p ∈ l, p.1 ≠ n := by
  intro p hp hn
  induction l with
  | nil => exact absurd hp (by simp)
  | cons q rest ih =>
    rw [lookup_cons] at h
    rcases List.mem_cons.mp hp with he | hm
    · subst he; rw [if_pos hn.symm] at h; cases h
    · by_cases hq : n = q.1
      · rw [if_pos hq] at h; cases h
      · rw [if_neg hq] at h
        exact ih h hm

/-- The field loop only consults the class through `__setattr__`: two classes
whose assignment behavior agrees on the listed field names run it
identically. -/
theorem initFields_agree (clsA clsB : DocClass)
    (fs : List (String × FieldSpec)) (kwargs inst : List (String × Value))
    (hag : ∀ p ∈ fs, ∀ v, setattrErr clsA p.1 v = setattrErr clsB p.1 v) :
    initFields clsA fs kwargs inst = initFields clsB fs kwargs inst := by
  induction fs generalizing inst with
  | nil => rfl
  | cons q rest ih =>
    obtain ⟨n, f⟩ := q
    have hag' : ∀ p ∈ rest, ∀ v, setattrErr clsA p.1 v = setattrErr clsB p.1 v :=
      fun p hp => hag p (List.mem_cons_of_mem _ hp)
    have hagn : ∀ v, setattrErr clsA n v = setattrErr clsB n v :=
      hag (n, f) (by simp)
    cases hvk : List.lookup n kwargs with
    | some v =>
      simp only [initFields, hvk, Document.setattr, hagn v]
      cases setattrErr clsB n v with
      | none => exact ih (setStore inst n v) hag'
      | some e => rfl
    | none =>
      simp only [initFields, hvk]
      cases f.auto with
      | true => exact ih inst hag'
      | false =>
        cases f.required with
        | true => rfl
        | false =>
          cases f.dflt with
          | none => exact ih inst hag'
          | some d =>
            simp only [Document.setattr, hagn d]
            cases setattrErr clsB n d with
            | none => exact ih (setStore inst n d) hag'
            | some e => rfl

/-- The field loop processes an appended list in two stages. -/
theorem initFields_append (cls : DocClass) (a b : List (String × FieldSpec))
    (kwargs inst : List (String × Value)) :
    initFields cls (a ++ b) kwargs inst =
      match initFields cls a kwargs inst with
      | .ok i2 => initFields cls b kwargs i2
      | .error e => .error e := by
  induction a generalizing inst with
  | nil => simp [initFields]
  | cons q rest ih =>
    obtain ⟨n, f⟩ := q
    rw [List.cons_append]
    simp only [initFields]
    cases hvk : List.lookup n kwargs with
    | some v =>
      rcases hsa : Document.setattr cls inst n v with ⟨i2, e⟩
      cases e with
      | none => simpa [hsa] using ih i2
      | some e0 => simp [hsa]
    | none =>
      cases hauto : f.auto with
      | true => simpa using ih inst
      | false =>
        cases hreq : f.required with
        | true => simp
        | false =>
          cases hdf : f.dflt with
          | none => simpa using ih inst
          | some d =>
            simp only []
            rcases hsa : Document.setattr cls inst n d with ⟨i2, e⟩
            cases e with
            | none => simpa [hsa] using ih i2
            | some e0 => simp [hsa]

/-- The extra-key check only consults `findField`: it agrees on two classes
whose field lookup agrees on the inspected keys. -/
theorem checkExtra_agree (clsA clsB : DocClass) (ks : List String)
    (hag : ∀ k ∈ ks, clsA.findField k = clsB.findField k) :
    checkExtra clsA ks = checkExtra clsB ks := by
  induction ks with
  | nil => rfl
  | cons k0 rest ih =>
    simp only [checkExtra, hag k0 (by simp)]
    cases clsB.findField k0 with
    | none => rfl
    | some f => exact ih fun k hk => hag k (List.mem_cons_of_mem _ hk)

/-- The field loop never creates a binding for a name outside its field
list. -/
theorem initFields_lookup_none (cls : DocClass)
    (fs : List (String × FieldSpec)) (kwargs inst inst2 : List (String × Value))
    (n : String) (hne : ∀ p ∈ fs, p.1 ≠ n) (h0 : List.lookup n inst = none)
    (hok : initFields cls fs kwargs inst = .ok inst2) :
    List.lookup n inst2 = none := by
  induction fs generalizing inst with
  | nil => cases hok; exact h0
  | cons q rest ih =>
    obtain ⟨m, f⟩ := q
    have hne' : ∀ p ∈ rest, p.1 ≠ n := fun p hp => hne p (List.mem_cons_of_mem _ hp)
    have hmn : m ≠ n := hne (m, f) (by simp)
    cases hvk : List.lookup m kwargs with
    | some v =>
      simp only [initFields, hvk] at hok
      rcases hsa : Document.setattr cls inst m v with ⟨i2, e⟩
      rw [hsa] at hok
      cases e with
      | none =>
        have hi2 : List.lookup n i2 = none := by
          have : i2 = setStore inst m v := by
            simp only [Document.setattr] at hsa
            cases he : setattrErr cls m v with
            | none => rw [he] at hsa; exact (Prod.mk.injEq _ _ _ _ ▸ hsa).1.symm ▸ rfl
            | some e1 => rw [he] at hsa; cases hsa
          rw [this, lookup_setStore_ne inst m n v hmn]
          exact h0
        exact ih i2 hne' hi2 hok
      | some e0 => cases hok
    | none =>
      simp only [initFields, hvk] at hok
      cases hauto : f.auto with
      | true =>
        rw [hauto] at hok
        simp only [if_pos rfl] at hok
        exact ih inst hne' h0 hok
      | false =>
        rw [hauto] at hok
        simp only [Bool.false_eq_true, if_false] at hok
        cases hreq : f.required with
        | true => rw [hreq] at hok; simp at hok
        | false =>
          rw [hreq] at hok
          simp only [Bool.false_eq_true, if_false] at hok
          cases hdf : f.dflt with
          | none => rw [hdf] at hok; exact ih inst hne' h0 hok
          | some d =>
            rw [hdf] at hok
            simp only [] at hok
            rcases hsa : Document.setattr cls inst m d with ⟨i2, e⟩
            rw [hsa] at hok
            cases e with
            | none =>
              have hi2 : List.lookup n i2 = none := by
                have : i2 = setStore inst m d := by
                  simp only [Document.setattr] at hsa
                  cases he : setattrErr cls m d with
                  | none => rw [he] at hsa; exact (Prod.mk.injEq _ _ _ _ ▸ hsa).1.symm ▸ rfl
                  | some e1 => rw [he] at hsa; cases hsa
                rw [this, lookup_setStore_ne inst m n d hmn]
                exact h0
              exact ih i2 hne' hi2 hok
            | some e0 => cases hok

/-- C8: a declared `auto` field omitted from the kwargs is completely inert
during construction: the outcome is the outcome the class without that field
would produce (so the field can cause no failure, even if `required`, and its
declared default is never assigned), and on success the field is left unset. -/
theorem c8_auto_field_inert (nm : String) (cn : Option String)
    (fs1 fs2 : List (String × FieldSpec)) (ixs : List IndexS) (n : String)
    (f : FieldSpec) (kwargs : List (String × Value))
    (hauto : f.auto = true) (hnk : List.lookup n kwargs = none)
    (h1 : ∀ p ∈ fs1, p.1 ≠ n) (h2 : ∀ p ∈ fs2, p.1 ≠ n) :
    Document.init (.mk nm cn (fs1 ++ (n, f) :: fs2) ixs) kwargs =
      Document.init (.mk nm cn (fs1 ++ fs2) ixs) kwargs ∧
    ∀ inst,
      Document.init (.mk nm cn (fs1 ++ (n, f) :: fs2) ixs) kwargs = .ok inst →
      List.lookup n inst = none := by
  set clsA : DocClass := .mk nm cn (fs1 ++ (n, f) :: fs2) ixs with hA
  set clsB : DocClass := .mk nm cn (fs1 ++ fs2) ixs with hB
  have hffA : ∀ k, k ≠ n → clsA.findField k = clsB.findField k := by
    intro k hk
    simp only [DocClass.findField, DocClass.fields, hA, hB]
    exact lookup_append_middle k n f fs1 fs2 hk
  have hsaA : ∀ p ∈ fs1 ++ fs2, ∀ v, setattrErr clsA p.1 v = setattrErr clsB p.1 v := by
    intro p hp v
    have hpn : p.1 ≠ n := by
      rcases List.mem_append.mp hp with h | h
      · exact h1 p h
      · exact h2 p h
    simp only [setattrErr, hffA p.1 hpn]
  have hfsA : initFields clsA (fs1 ++ (n, f) :: fs2) kwargs [] =
      initFields clsB (fs1 ++ fs2) kwargs [] := by
    rw [initFields_append clsA fs1 ((n, f) :: fs2) kwargs []]
    have hskip : ∀ i, initFields clsA ((n, f) :: fs2) kwargs i =
        initFields clsA fs2 kwargs i := by
      intro i
      simp only [initFields, hnk]
      rw [hauto]
      simp
    have : (match initFields clsA fs1 kwargs [] with
        | .ok i2 => initFields clsA ((n, f) :: fs2) kwargs i2
        | .error e => .error e) =
        (match initFields clsA fs1 kwargs [] with
        | .ok i2 => initFields clsA fs2 kwargs i2
        | .error e => .error e) := by
      cases initFields clsA fs1 kwargs [] with
      | ok i2 => exact hskip i2
      | error e => rfl
    rw [this, ← initFields_append clsA fs1 fs2 kwargs []]
    exact initFields_agree clsA clsB (fs1 ++ fs2) kwargs [] hsaA
  have hkeys : ∀ k ∈ kwargs.map Prod.fst, clsA.findField k = clsB.findField k := by
    intro k hk
    obtain ⟨p, hp, hpk⟩ := List.mem_map.mp hk
    exact hffA k (hpk ▸ lookup_none_keys n kwargs hnk p hp)
  have hce : checkExtra clsA (kwargs.map Prod.fst) =
      checkExtra clsB (kwargs.map Prod.fst) :=
    checkExtra_agree clsA clsB _ hkeys
  have hinit : Document.init clsA kwargs = Document.init clsB kwargs := by
    simp only [Document.init, DocClass.fields, hA, hB] at *
    rw [hfsA, hce]
  refine ⟨hinit, ?_⟩
  intro inst hok
  rw [hinit] at hok
  simp only [Document.init] at hok
  cases hfs : initFields clsB clsB.fields kwargs [] with
  | error e => rw [hfs] at hok; cases hok
  | ok i2 =>
    rw [hfs] at hok
    cases hck : checkExtra clsB (kwargs.map Prod.fst) with
    | some e => rw [hck] at hok; cases hok
    | none =>
      rw [hck] at hok
      have hii : i2 = inst := by injection hok
      subst hii
      refine initFields_lookup_none clsB clsB.fields kwargs [] i2 n ?_ rfl hfs
      intro p hp
      simp only [hB, DocClass.fields] at hp
      rcases List.mem_append.mp hp with h | h
      · exact h1 p h
      · exact h2 p h

/-- Witness for C8: omitting the auto field `aid` — although `required` and
carrying a default — neither fails nor assigns anything: construction behaves
exactly as if `aid` were not declared, and leaves `aid` unset. -/
theorem c8_witness :
    Document.init (.mk "AutoDoc" none
        ([] ++ ("aid", autoField) :: [("name", strField)]) [])
        [("name", .vstr "Ada")] =
      Document.init (.mk "AutoDoc" none ([] ++ [("name", strField)]) [])
        [("name", .vstr "Ada")] ∧
    ∀ inst, Document.init (.mk "AutoDoc" none
        ([] ++ ("aid", autoField) :: [("name", strField)]) [])
        [("name", .vstr "Ada")] = .ok inst →
      List.lookup "aid" inst = none :=
  c8_auto_field_inert "AutoDoc" none [] [("name", strField)] [] "aid"
    autoField [("name", .vstr "Ada")] rfl rfl (by simp)
    (by intro p hp; simp at hp; rw [hp]; decide)

/-- `Document.wrap` is the field loop over the class's declared fields. -/
theorem wrap_eq_wrapFields (cls : DocClass) (inst : List (String × Value)) :
    Document.wrap cls inst = wrapFields cls.fields inst := by
  cases cls
  simp [Document.wrap, DocClass.fields]

/-- Characterization of a successful `wrap` loop: the produced keys are a
sublist of the declared field names, every declared field with a set value
contributes its wrapped value, and no binding exists for unset fields or
undeclared names. -/
theorem wrapFields_ok_spec (fs : List (String × FieldSpec))
    (inst res : List (String × Value)) (hw : wrapFields fs inst = .ok res) :
    (res.map Prod.fst).Sublist (fs.map Prod.fst) ∧
    ∀ n,
      (∀ f, List.lookup n fs = some f →
        (∀ v, List.lookup n inst = some v →
          ∃ w, f.wrap v = .ok w ∧ List.lookup n res = some w) ∧
        (List.lookup n inst = none → List.lookup n res = none)) ∧
      (List.lookup n fs = none → List.lookup n res = none) := by
  induction fs generalizing res with
  | nil =>
    simp only [wrapFields] at hw
    have hres : res = [] := by
      cases hw; rfl
    subst hres
    refine ⟨by simp, fun n => ⟨fun f hf => ?_, fun _ => by simp [List.lookup]⟩⟩
    simp [List.lookup] at hf
  | cons q rest ih =>
    obtain ⟨m, g⟩ := q
    simp only [wrapFields] at hw
    cases hli : List.lookup m inst with
    | none =>
      rw [hli] at hw
      obtain ⟨hsub, hlk⟩ := ih res hw
      refine ⟨hsub.cons _, fun n => ⟨fun f hf => ?_, fun hf => ?_⟩⟩
      · rw [lookup_cons] at hf
        by_cases hnm : n = m
        · rw [if_pos hnm] at hf
          injection hf with hf
          subst hf
          constructor
          · intro v hv
            rw [hnm, hli] at hv
            cases hv
          · intro _
            cases hrf : List.lookup n rest with
            | some f' => exact ((hlk n).1 f' hrf).2 (hnm ▸ hli)
            | none => exact (hlk n).2 hrf
        · rw [if_neg hnm] at hf
          exact (hlk n).1 f hf
      · rw [lookup_cons] at hf
        by_cases hnm : n = m
        · rw [if_pos hnm] at hf; cases hf
        · rw [if_neg hnm] at hf
          exact (hlk n).2 hf
    | some v =>
      rw [hli] at hw
      have hw' : (match g.wrap v with
          | Except.error e => (Except.error e : Except DocError (List (String × Value)))
          | Except.ok w =>
            match wrapFields rest inst with
            | Except.error e => Except.error e
            | Except.ok tl => Except.ok ((m, w) :: tl)) = Except.ok res := hw
      clear hw
      cases hfw : g.wrap v with
      | error e => rw [hfw] at hw'; cases hw'
      | ok w =>
        rw [hfw] at hw'
        cases hwr : wrapFields rest inst with
        | error e => rw [hwr] at hw'; cases hw'
        | ok tl =>
          rw [hwr] at hw'
          have hres : res = (m, w) :: tl := by
            cases hw'; rfl
          subst hres
          obtain ⟨hsub, hlk⟩ := ih tl hwr
          refine ⟨by simpa using hsub.cons₂ m, fun n => ⟨fun f hf => ?_, fun hf => ?_⟩⟩
          · rw [lookup_cons] at hf
            by_cases hnm : n = m
            · rw [if_pos hnm] at hf
              injection hf with hf
              subst hf
              constructor
              · intro v' hv'
                rw [hnm, hli] at hv'
                injection hv' with hv'
                subst hv'
                exact ⟨w, hfw, by rw [lookup_cons, if_pos hnm]⟩
              · intro hv0
                rw [hnm, hli] at hv0
                cases hv0
            · rw [if_neg hnm] at hf
              rw [lookup_cons, if_neg hnm]
              exact (hlk n).1 f hf
          · rw [lookup_cons] at hf
            by_cases hnm : n = m
            · rw [if_pos hnm] at hf; cases hf
            · rw [if_neg hnm] at hf
              rw [lookup_cons, if_neg hnm]
              exact (hlk n).2 hf

/-- C7: a successful `wrap()` returns a dictionary with exactly one entry
`name -> field.wrap(value)` per declared field with a set value, and no entry
at all for declared fields with no set value (nor for undeclared names). -/
theorem c7_wrap_contents (cls : DocClass) (inst res : List (String × Value))
    (hw : Document.wrap cls inst = .ok res)
    (hnd : (cls.fields.map Prod.fst).Nodup) :
    (res.map Prod.fst).Nodup ∧
    (∀ n f, cls.findField n = some f →
      (∀ v, List.lookup n inst = some v →
        ∃ w, f.wrap v = .ok w ∧ List.lookup n res = some w) ∧
      (List.lookup n inst = none → List.lookup n res = none)) ∧
    (∀ n, cls.findField n = none → List.lookup n res = none) := by
  rw [wrap_eq_wrapFields] at hw
  obtain ⟨hsub, hlk⟩ := wrapFields_ok_spec cls.fields inst res hw
  exact ⟨hnd.sublist hsub, fun n f hf => (hlk n).1 f hf, fun n hf => (hlk n).2 hf⟩

/-- Witness for C7: wrapping a fully set `Person` yields exactly its three
entries; the partially set instance `[("name", "Ada")]` wraps with no entry
for the unset `age`. -/
theorem c7_witness :
    (Document.wrap Person pInst = .ok pInst) ∧
    (pInst.map Prod.fst).Nodup ∧
    List.lookup "age" [("name", Value.vstr "Ada")] = none ∧
    ∀ res, Document.wrap Person [("name", Value.vstr "Ada")] = .ok res →
      List.lookup "age" res = none := by
  refine ⟨?_, by decide, rfl, ?_⟩
  · simp [Document.wrap, wrapFields, FieldSpec.wrap, Person, DocClass.fields,
      pInst, oidField, ageField, strField, isStrV, isIntV, lookup_cons, List.lookup]
  · intro res hw
    exact ((c7_wrap_contents Person [("name", Value.vstr "Ada")] res hw
      (by decide)).2.1 "age" ageField rfl).2 rfl

/-- C6: `commit` requests the synchronization of every declared index on the
resolved collection, then a save of `wrap()`'s output, in that order; on a
successful save the returned identifier is assigned to `_id` (provided the
`_id` assignment itself validates), and when save raises, the instance — in
particular `_id` — is left exactly as it was. -/
theorem c6_commit_protocol (cls : DocClass) (inst w : List (String × Value))
    (hw : Document.wrap cls inst = .ok w) :
    (∀ idv, setattrErr cls "_id" idv = none →
      Document.commit cls inst (.ok idv) =
        ⟨setStore inst "_id" idv, cls.get_collection_name,
          cls.indexes.map IndexS.ensureOp ++ [.saveOp w], none⟩ ∧
      List.lookup "_id" (setStore inst "_id" idv) = some idv) ∧
    Document.commit cls inst (.error ()) =
      ⟨inst, cls.get_collection_name,
        cls.indexes.map IndexS.ensureOp ++ [.saveOp w], some .saveFailed⟩ := by
  constructor
  · intro idv hid
    constructor
    · simp only [Document.commit, hw, Document.setattr, hid]
    · exact lookup_setStore_self inst "_id" idv
  · simp only [Document.commit, hw]

/-- Witness for C6: committing a populated instance ensures the declared
index, then saves the wrapped document; with a successful save the returned
identifier lands in `_id`, with a failing save `_id` stays unset. -/
theorem c6_witness :
    (Document.commit PersonIxd [("age", .vint 3), ("name", .vstr "Ada")]
        (.ok (.vstr "oid1")) =
      ⟨setStore [("age", .vint 3), ("name", .vstr "Ada")] "_id" (.vstr "oid1"),
        "people",
        [.ensureIndexOp [("name", ASCENDING)] false false,
         .saveOp [("age", .vint 3), ("name", .vstr "Ada")]], none⟩ ∧
      List.lookup "_id"
        (setStore [("age", .vint 3), ("name", .vstr "Ada")] "_id" (.vstr "oid1")) =
        some (.vstr "oid1")) ∧
    Document.commit PersonIxd [("age", .vint 3), ("name", .vstr "Ada")]
        (.error ()) =
      ⟨[("age", .vint 3), ("name", .vstr "Ada")], "people",
        [.ensureIndexOp [("name", ASCENDING)] false false,
         .saveOp [("age", .vint 3), ("name", .vstr "Ada")]], some .saveFailed⟩ := by
  have hw : Document.wrap PersonIxd [("age", .vint 3), ("name", .vstr "Ada")] =
      .ok [("age", .vint 3), ("name", .vstr "Ada")] := by
    simp [Document.wrap, wrapFields, FieldSpec.wrap, PersonIxd, DocClass.fields,
      oidField, ageField, strField, isStrV, isIntV, lookup_cons, List.lookup]
  have h := c6_commit_protocol PersonIxd
    [("age", .vint 3), ("name", .vstr "Ada")] _ hw
  exact ⟨h.1 (.vstr "oid1") rfl, h.2⟩

/-- C5 counterexample: unwrapping a stored `Person` document carrying the
unknown key `nickname` fails — but with the `AttributeError` of
`getattr(cls, k)` at line 168, not with `ExtraValueException`. -/
theorem c5_counterexample :
    Document.unwrap Person [("name", .vstr "Ada"), ("nickname", .vstr "A")] =
      .error (.attributeError "nickname") ∧
    Document.unwrap Person [("name", .vstr "Ada"), ("nickname", .vstr "A")] ≠
      .error (.extraValue "nickname") := by
  have h : Document.unwrap Person
      [("name", .vstr "Ada"), ("nickname", .vstr "A")] =
      .error (.attributeError "nickname") := by
    simp [Document.unwrap, unwrapEntries, FieldSpec.unwrap, Person,
      DocClass.findField, DocClass.fields, strField, isStrV, lookup_cons,
      List.lookup, setStore]
  refine ⟨h, ?_⟩
  rw [h]
  simp

/-- C5 as the code has it: a stored key naming no class attribute makes
`unwrap` fail with an `AttributeError` — it is never silently dropped — the
failure surfacing at the first such key once the entries before it unwrap
cleanly. -/
theorem c5_unknown_key_fails (cls : DocClass) (pre : List (String × Value))
    (k : String) (v : Value) (rest : List (String × Value))
    (hpre : ∀ p ∈ pre, ∃ f u, cls.findField p.1 = some f ∧ f.unwrap p.2 = .ok u)
    (hk : cls.findField k = none) :
    Document.unwrap cls (pre ++ (k, v) :: rest) =
      .error (.attributeError k) := by
  have key : ∀ (pre2 params : List (String × Value)),
      (∀ p ∈ pre2, ∃ f u, cls.findField p.1 = some f ∧ f.unwrap p.2 = .ok u) →
      unwrapEntries cls (pre2 ++ (k, v) :: rest) params =
        .error (.attributeError k) := by
    intro pre2
    induction pre2 with
    | nil =>
      intro params _
      simp only [List.nil_append, unwrapEntries]
      split
      · rfl
      · next f' heq => rw [hk] at heq; cases heq
    | cons p ps ih =>
      intro params hpre2
      obtain ⟨pk, pv⟩ := p
      obtain ⟨f, u, hpf, huu⟩ := hpre2 (pk, pv) (by simp)
      simp only [List.cons_append, unwrapEntries]
      split
      · next heq => rw [hpf] at heq; cases heq
      · next f' heq =>
          rw [hpf] at heq
          injection heq with heq
          subst heq
          rw [huu]
          exact ih (setStore params pk u)
            (fun q hq => hpre2 q (List.mem_cons_of_mem _ hq))
  have hkey := key pre [] hpre
  rw [show Document.unwrap cls (pre ++ (k, v) :: rest) =
    unwrapEntries cls (pre ++ (k, v) :: rest) [] by rw [Document.unwrap]]
  exact hkey

/-- Witness for the amended C5: the concrete unknown key `nickname` after the
cleanly unwrapping `name` entry. -/
theorem c5_witness :
    Person.findField "nickname" = none ∧
    Document.unwrap Person [("name", .vstr "Ada"), ("nickname", .vstr "A")] =
      .error (.attributeError "nickname") := by
  refine ⟨rfl, c5_unknown_key_fails Person [("name", .vstr "Ada")] "nickname"
    (.vstr "A") [] ?_ rfl⟩
  intro p hp
  simp at hp
  rw [hp]
  refine ⟨strField, .vstr "Ada", rfl, ?_⟩
  simp [FieldSpec.unwrap, strField, isStrV]

/-- A class's field list is structurally smaller than the class. -/
theorem fields_sizeOf_lt (cls : DocClass) : sizeOf cls.fields < sizeOf cls := by
  cases cls
  simp [DocClass.fields]
  omega

/-- Unfolding of `goodInst` through the accessors. -/
theorem goodInst_elim (cls : DocClass) (attrs : List (String × Value))
    (h : goodInst cls attrs) :
    (cls.fields.map Prod.fst).Nodup ∧ goodFields cls.fields attrs := by
  cases cls
  rw [goodInst] at h
  exact h

/-- A well-behaved value passes the field's `is_valid_wrap`. -/
theorem goodVal_valid (f : FieldSpec) (v : Value) (h : goodVal f v) :
    f.is_valid_wrap v = true := by
  cases f with
  | scalar r a d ivw wf ivu uf =>
    rw [goodVal] at h
    exact h.1
  | nestedDoc r a d cls =>
    cases v with
    | vinst tn attrs =>
      rw [goodVal] at h
      simp [FieldSpec.is_valid_wrap, h.1]
    | vnull => simp [goodVal] at h
    | vint n => simp [goodVal] at h
    | vstr s => simp [goodVal] at h
    | vbool b => simp [goodVal] at h
    | vlist xs => simp [goodVal] at h
    | vmap es => simp [goodVal] at h

/-- In a list with distinct keys, every member is what its key looks up
to. -/
theorem nodup_lookup {β : Type} (l : List (String × β))
    (hnd : (l.map Prod.fst).Nodup) (p : String × β) (hp : p ∈ l) :
    List.lookup p.1 l = some p.2 := by
  induction l with
  | nil => exact absurd hp (by simp)
  | cons q rest ih =>
    obtain ⟨qk, qv⟩ := q
    rcases List.mem_cons.mp hp with he | hm
    · subst he
      simp [lookup_cons]
    · have hne : p.1 ≠ qk := by
        intro hcontra
        have : qk ∈ rest.map Prod.fst :=
          List.mem_map.mpr ⟨p, hm, hcontra ▸ rfl⟩
        exact (List.nodup_cons.mp hnd).1 this
      rw [lookup_cons, if_neg hne]
      exact ih (List.nodup_cons.mp hnd).2 hm

/-- Matching field names of a canonical correspondence. -/
theorem goodFields_names (fs : List (String × FieldSpec))
    (attrs : List (String × Value)) (h : goodFields fs attrs) :
    fs.map Prod.fst = attrs.map Prod.fst := by
  induction fs generalizing attrs with
  | nil =>
    cases attrs with
    | nil => rfl
    | cons p vs => simp [goodFields] at h
  | cons q rest ih =>
    obtain ⟨n, f⟩ := q
    cases attrs with
    | nil => simp [goodFields] at h
    | cons p vs =>
      obtain ⟨m, v⟩ := p
      rw [goodFields] at h
      simp only [List.map_cons]
      exact congrArg₂ (· :: ·) h.1 (ih vs h.2.2)

/-- Alignment survives prepending a binding with a fresh key. -/
theorem aligned_extend (inst : List (String × Value))
    (fs : List (String × FieldSpec)) (attrs : List (String × Value))
    (k : String) (w : Value) (h : aligned inst fs attrs)
    (hk : ∀ p ∈ fs, p.1 ≠ k) : aligned ((k, w) :: inst) fs attrs := by
  induction fs generalizing attrs with
  | nil =>
    cases attrs with
    | nil => trivial
    | cons p vs => exact absurd h (by simp [aligned])
  | cons q rest ih =>
    obtain ⟨n, f⟩ := q
    cases attrs with
    | nil => exact absurd h (by simp [aligned])
    | cons p vs =>
      obtain ⟨m, v⟩ := p
      simp only [aligned] at h ⊢
      refine ⟨h.1, ?_, ih vs h.2.2 fun p hp => hk p (List.mem_cons_of_mem _ hp)⟩
      rw [lookup_cons, if_neg (hk (n, f) (by simp))]
      exact h.2.1

/-- A canonical attribute list is aligned with its field list against
itself. -/
theorem aligned_self (fs : List (String × FieldSpec))
    (attrs : List (String × Value)) (hnd : (fs.map Prod.fst).Nodup)
    (hg : goodFields fs attrs) : aligned attrs fs attrs := by
  induction fs generalizing attrs with
  | nil =>
    cases attrs with
    | nil => trivial
    | cons p vs => simp [goodFields] at hg
  | cons q rest ih =>
    obtain ⟨n, f⟩ := q
    cases attrs with
    | nil => simp [goodFields] at hg
    | cons p vs =>
      obtain ⟨m, v⟩ := p
      rw [goodFields] at hg
      obtain ⟨hnm, hgv, hg'⟩ := hg
      simp only [aligned]
      refine ⟨hnm, by rw [lookup_cons, if_pos hnm], ?_⟩
      have htail := ih vs (List.nodup_cons.mp hnd).2 hg'
      refine aligned_extend vs rest vs m v htail ?_
      intro p hp hpm
      have : n ∈ rest.map Prod.fst :=
        List.mem_map.mpr ⟨p, hp, by rw [hpm, hnm]⟩
      exact (List.nodup_cons.mp hnd).1 this

/-- The field loop, fed a canonical kwargs dictionary covering all listed
fields with valid values, assigns every field in declaration order. -/
theorem initFields_canonical (cls : DocClass) (fs : List (String × FieldSpec))
    (kwargs attrs instAcc : List (String × Value))
    (hg : goodFields fs attrs) (hal : aligned kwargs fs attrs)
    (hnd : (fs.map Prod.fst).Nodup)
    (hff : ∀ p ∈ fs, cls.findField p.1 = some p.2)
    (hfresh : ∀ p ∈ fs, List.lookup p.1 instAcc = none) :
    initFields cls fs kwargs instAcc = .ok (instAcc ++ attrs) := by
  induction fs generalizing attrs instAcc with
  | nil =>
    cases attrs with
    | nil => simp [initFields]
    | cons p vs => simp [goodFields] at hg
  | cons q rest ih =>
    obtain ⟨n, f⟩ := q
    cases attrs with
    | nil => simp [goodFields] at hg
    | cons p vs =>
      obtain ⟨m, v⟩ := p
      rw [goodFields] at hg
      obtain ⟨hnm, hgv, hg'⟩ := hg
      simp only [aligned] at hal
      obtain ⟨_, hlk, hal'⟩ := hal
      have herr : setattrErr cls n v = none := by
        rw [setattrErr, hff (n, f) (by simp)]
        simp [FieldSpec.validate_wrap, goodVal_valid f v hgv]
      have hstore : setStore instAcc n v = instAcc ++ [(n, v)] :=
        setStore_append instAcc n v (hfresh (n, f) (by simp))
      simp only [initFields, hlk, Document.setattr, herr, hstore]
      have hfresh' : ∀ p ∈ rest, List.lookup p.1 (instAcc ++ [(n, v)]) = none := by
        intro p hp
        rw [lookup_append, hfresh p (List.mem_cons_of_mem _ hp)]
        have hpn : p.1 ≠ n := by
          intro hcontra
          exact (List.nodup_cons.mp hnd).1
            (List.mem_map.mpr ⟨p, hp, hcontra⟩)
        simp [lookup_cons, hpn, Option.or]
      have := ih vs (instAcc ++ [(n, v)]) hg' hal'
        (List.nodup_cons.mp hnd).2
        (fun p hp => hff p (List.mem_cons_of_mem _ hp)) hfresh'
      rw [this, show m = n from hnm.symm]
      simp

/-- `cls(**attrs)` reproduces a canonical fully set attribute dictionary
exactly. -/
theorem init_canonical (cls : DocClass) (attrs : List (String × Value))
    (hgi : goodInst cls attrs) : Document.init cls attrs = .ok attrs := by
  obtain ⟨hnd, hg⟩ := goodInst_elim cls attrs hgi
  have hff : ∀ p ∈ cls.fields, cls.findField p.1 = some p.2 :=
    fun p hp => nodup_lookup cls.fields hnd p hp
  have hfs := initFields_canonical cls cls.fields attrs attrs [] hg
    (aligned_self cls.fields attrs hnd hg) hnd hff (by simp [List.lookup])
  have hchk : checkExtra cls (attrs.map Prod.fst) = none := by
    refine checkExtra_none cls _ ?_
    intro k hk
    rw [← goodFields_names cls.fields attrs hg] at hk
    obtain ⟨p, hp, hpk⟩ := List.mem_map.mp hk
    exact ⟨p.2, hpk ▸ hff p hp⟩
  simp only [Document.init, hfs, hchk]
  simp

/-- `Document.unwrap` enters its entry loop with empty params. -/
theorem unwrap_eq_unwrapEntries (cls : DocClass)
    (obj : List (String × Value)) :
    Document.unwrap cls obj = unwrapEntries cls obj [] := by
  rw [Document.unwrap]

/-- The `wrap` field loop over a canonical instance wraps every entry,
given that each listed field's well-behaved values round-trip. -/
theorem wrapFields_rt (fs : List (String × FieldSpec))
    (attrs inst : List (String × Value)) (hg : goodFields fs attrs)
    (hal : aligned inst fs attrs)
    (hrt : ∀ p ∈ fs, ∀ v, goodVal p.2 v →
      p.2.wrap v = .ok (wrapValD p.2 v) ∧
      p.2.unwrap (wrapValD p.2 v) = .ok v) :
    wrapFields fs inst = .ok (wrapPairs fs attrs) := by
  induction fs generalizing attrs with
  | nil =>
    cases attrs with
    | nil => simp [wrapFields, wrapPairs]
    | cons p vs => simp [goodFields] at hg
  | cons q rest ih =>
    obtain ⟨n, f⟩ := q
    cases attrs with
    | nil => simp [goodFields] at hg
    | cons p vs =>
      obtain ⟨m, v⟩ := p
      rw [goodFields] at hg
      obtain ⟨hnm, hgv, hg'⟩ := hg
      simp only [aligned] at hal
      obtain ⟨_, hlk, hal'⟩ := hal
      have h1 := hrt (n, f) (by simp) v hgv
      have ihr := ih vs hg' hal'
        (fun p hp => hrt p (List.mem_cons_of_mem _ hp))
      simp only [wrapFields, hlk, h1.1, ihr, wrapPairs]

/-- The `unwrap` entry loop over a pointwise-wrapped canonical dictionary
unwraps every entry back and hands the accumulated params to
`cls(**params)`, given that each listed field's well-behaved values
round-trip. -/
theorem unwrapEntries_rt (cls : DocClass) (fs : List (String × FieldSpec))
    (attrs params : List (String × Value)) (hg : goodFields fs attrs)
    (hnd : (fs.map Prod.fst).Nodup)
    (hff : ∀ p ∈ fs, cls.findField p.1 = some p.2)
    (hdisj : ∀ p ∈ fs, List.lookup p.1 params = none)
    (hrt : ∀ p ∈ fs, ∀ v, goodVal p.2 v →
      p.2.wrap v = .ok (wrapValD p.2 v) ∧
      p.2.unwrap (wrapValD p.2 v) = .ok v) :
    unwrapEntries cls (wrapPairs fs attrs) params =
      Document.init cls (params ++ attrs) := by
  induction fs generalizing attrs params with
  | nil =>
    cases attrs with
    | nil => simp [wrapPairs, unwrapEntries]
    | cons p vs => simp [goodFields] at hg
  | cons q rest ih =>
    obtain ⟨n, f⟩ := q
    cases attrs with
    | nil => simp [goodFields] at hg
    | cons p vs =>
      obtain ⟨m, v⟩ := p
      rw [goodFields] at hg
      obtain ⟨hnm, hgv, hg'⟩ := hg
      have h1 := hrt (n, f) (by simp) v hgv
      rw [show wrapPairs ((n, f) :: rest) ((m, v) :: vs) =
        (n, wrapValD f v) :: wrapPairs rest vs from rfl]
      simp only [unwrapEntries]
      split
      · next heq => rw [hff (n, f) (by simp)] at heq; cases heq
      · next f' heq =>
          rw [hff (n, f) (by simp)] at heq
          injection heq with heq
          subst heq
          rw [h1.2]
          show unwrapEntries cls (wrapPairs rest vs) (setStore params n v) =
            Document.init cls (params ++ (m, v) :: vs)
          rw [setStore_append params n v (hdisj (n, f) (by simp))]
          have hdisj' : ∀ p ∈ rest,
              List.lookup p.1 (params ++ [(n, v)]) = none := by
            intro p hp
            rw [lookup_append, hdisj p (List.mem_cons_of_mem _ hp)]
            have hpn : p.1 ≠ n := by
              intro hcontra
              exact (List.nodup_cons.mp hnd).1
                (List.mem_map.mpr ⟨p, hp, hcontra⟩)
            simp [lookup_cons, hpn, Option.or]
          rw [ih vs (params ++ [(n, v)]) hg' (List.nodup_cons.mp hnd).2
            (fun p hp => hff p (List.mem_cons_of_mem _ hp)) hdisj'
            (fun p hp => hrt p (List.mem_cons_of_mem _ hp))]
          rw [show m = n from hnm.symm]
          simp

mutual
/-- Round trip of one well-behaved field value: `field.wrap` succeeds and
`field.unwrap` of the result restores the value exactly. -/
theorem goodVal_rt (f : FieldSpec) (v : Value) (h : goodVal f v) :
    f.wrap v = .ok (wrapValD f v) ∧ f.unwrap (wrapValD f v) = .ok v := by
  cases f with
  | scalar r a d ivw wf ivu uf =>
    rw [goodVal] at h
    obtain ⟨h1, h2, h3⟩ := h
    have hwrap : FieldSpec.wrap (.scalar r a d ivw wf ivu uf) v = .ok (wf v) := by
      simp [FieldSpec.wrap, h1]
    have hwv : wrapValD (.scalar r a d ivw wf ivu uf) v = wf v := by
      simp [wrapValD, hwrap]
    rw [hwv, hwrap]
    exact ⟨rfl, by simp [FieldSpec.unwrap, h2, h3]⟩
  | nestedDoc r a d cls =>
    cases v with
    | vinst tn attrs =>
      rw [goodVal] at h
      obtain ⟨htn, hgi⟩ := h
      subst htn
      obtain ⟨hW, hU⟩ := goodInst_rt cls attrs hgi
      have hwrap : FieldSpec.wrap (.nestedDoc r a d cls) (.vinst cls.name attrs) =
          .ok (.vmap (wrapPairs cls.fields attrs)) := by
        simp [FieldSpec.wrap, hW]
      have hwv : wrapValD (.nestedDoc r a d cls) (.vinst cls.name attrs) =
          .vmap (wrapPairs cls.fields attrs) := by
        simp [wrapValD, hwrap]
      rw [hwv, hwrap]
      exact ⟨rfl, by simp [FieldSpec.unwrap, hU]⟩
    | vnull => simp [goodVal] at h
    | vint n => simp [goodVal] at h
    | vstr s => simp [goodVal] at h
    | vbool b => simp [goodVal] at h
    | vlist xs => simp [goodVal] at h
    | vmap es => simp [goodVal] at h
termination_by sizeOf f

/-- Round trip of a canonical fully set instance: `Document.wrap` produces
exactly the pointwise-wrapped dictionary, and `Document.unwrap` of that
dictionary reconstructs the instance exactly. -/
theorem goodInst_rt (cls : DocClass) (attrs : List (String × Value))
    (h : goodInst cls attrs) :
    Document.wrap cls attrs = .ok (wrapPairs cls.fields attrs) ∧
    Document.unwrap cls (wrapPairs cls.fields attrs) = .ok attrs := by
  obtain ⟨hnd, hg⟩ := goodInst_elim cls attrs h
  constructor
  · rw [wrap_eq_wrapFields]
    exact wrapFields_rt cls.fields attrs attrs hg
      (aligned_self cls.fields attrs hnd hg)
      (fun p hp v hgv => goodVal_rt p.2 v hgv)
  · rw [unwrap_eq_unwrapEntries]
    rw [unwrapEntries_rt cls cls.fields attrs [] hg hnd
      (fun p hp => nodup_lookup cls.fields hnd p hp) (by simp [List.lookup])
      (fun p hp v hgv => goodVal_rt p.2 v hgv)]
    simpa using init_canonical cls attrs h
termination_by sizeOf cls
decreasing_by
  all_goals
    have h1 := List.sizeOf_lt_of_mem hp
    have h2 := fields_sizeOf_lt cls
    obtain ⟨pk, pv⟩ := p
    simp at h1 ⊢
    omega
end

/-- C2: for a validly constructed instance all of whose declared fields have
a set value (canonical form, well-behaved leaf codecs, nested-document values
themselves in that form), wrapping and then unwrapping reproduces the
instance exactly — `unwrap(wrap(x)) == x` — including through the
`DocumentField` codec's delegation to the nested class. -/
theorem c2_roundtrip (cls : DocClass) (inst : List (String × Value))
    (h : goodInst cls inst) :
    ∃ w, Document.wrap cls inst = .ok w ∧ Document.unwrap cls w = .ok inst :=
  ⟨wrapPairs cls.fields inst, (goodInst_rt cls inst h).1,
    (goodInst_rt cls inst h).2⟩

/-- Witness for C2: the concrete nested `Owner` instance is well-behaved and
round-trips through `wrap`/`unwrap`. -/
theorem c2_witness :
    goodInst Owner ownerInst ∧
    ∃ w, Document.wrap Owner ownerInst = .ok w ∧
      Document.unwrap Owner w = .ok ownerInst := by
  have hg : goodInst Owner ownerInst := by
    simp [goodInst, goodFields, goodVal, Owner, Address, ownerInst,
      strField, isStrV, DocClass.name, DocClass.fields]
  exact ⟨hg, c2_roundtrip Owner ownerInst hg⟩
